import Mathlib

/-!
Shallow embedding of locker-lint (src/main.rs), a linter for flake.lock
files.  The program decodes a JSON lock document into a `FlakeLock`,
checks the schema version, canonicalizes every locked source into a URI
string (`flake_uri`), and groups node names by identical canonical URI
(`find_duplicates`).

Rust `HashMap`s are modelled as association lists: the list order stands
for the (arbitrary) iteration order of the map, and map equality is list
permutation.  Rust `String::to_lowercase` is modelled by
`String.toLower` (per-character lowercasing; it agrees with Rust on
ASCII input, which is the case the specification discusses).
-/

namespace LockerLint

/-- The `Locked` enum from src/main.rs: a tagged variant over source
kinds, each kind carrying only the fields relevant to it. -/
inductive Locked where
  | GitHub (owner : String) (repo : String)
  | GitLab (owner : String) (repo : String)
  | SourceHut (owner : String) (repo : String)
  | Git (url : String)
  | Hg (url : String)
  | Tarball (url : String)
  | Path (path : String)
  deriving DecidableEq, Inhabited

/-- The `Node` struct from src/main.rs: one dependency entry with an
optional locked source. -/
structure Node where
  locked : Option Locked
  deriving DecidableEq, Inhabited

/-- The `FlakeLock` struct from src/main.rs.  `nodes` is a
`HashMap<String, Node>` in Rust, modelled as an association list whose
order stands for the map's iteration order. -/
structure FlakeLock where
  nodes : List (String × Node)
  version : Nat
  root : String
  deriving DecidableEq, Inhabited

/-- Model of Rust `str::to_lowercase`: lowercase every character.
`Char.toLower` agrees with Rust on ASCII input, which is the case the
lock-file format and the specification discuss. -/
def rustToLowercase (s : String) : String :=
  String.mk (s.data.map Char.toLower)

/-- `make_scm_uri` from src/main.rs:
`format!("{node_type}:{}/{}", owner.to_lowercase(), repo.to_lowercase())`. -/
def make_scm_uri (node_type owner repo : String) : String :=
  node_type ++ ":" ++ rustToLowercase owner ++ "/" ++ rustToLowercase repo

/-- `make_url_uri` from src/main.rs: `format!("{node_type}:{url}")`. -/
def make_url_uri (node_type url : String) : String :=
  node_type ++ ":" ++ url

/-- `flake_uri` from src/main.rs: dispatch on the `Locked` variant. -/
def flake_uri : Locked → String
  | Locked.GitHub owner repo => make_scm_uri "github" owner repo
  | Locked.GitLab owner repo => make_scm_uri "gitlab" owner repo
  | Locked.SourceHut owner repo => make_scm_uri "sourcehut" owner repo
  | Locked.Git url => make_url_uri "git" url
  | Locked.Hg url => make_url_uri "hg" url
  | Locked.Tarball url => make_url_uri "tarball" url
  | Locked.Path path => "path:" ++ path

/-- The effect of `data.entry(k).insert_entry(val)` on a map modelled as
an association list: replace the value at `k` if the key is present,
otherwise append the new binding. -/
def insertEntry : List (String × String) → String → String → List (String × String)
  | [], k, v => [(k, v)]
  | (k', v') :: rest, k, v =>
      if k' = k then (k, v) :: rest else (k', v') :: insertEntry rest k v

/-- The loop body of `parse_inputs` from src/main.rs: skip nodes whose
`locked` is `None`, otherwise unwrap it (modelled by `Option.get!`, as
in the source) and record the canonical URI under the node's name. -/
def parse_inputs_aux : List (String × Node) → List (String × String) → List (String × String)
  | [], data => data
  | (k, v) :: rest, data =>
      if v.locked.isNone then
        parse_inputs_aux rest data
      else
        parse_inputs_aux rest (insertEntry data k (flake_uri v.locked.get!))

/-- `parse_inputs` from src/main.rs. -/
def parse_inputs (flake_lock : FlakeLock) : List (String × String) :=
  parse_inputs_aux flake_lock.nodes []

/-- Variant of the `parse_inputs` loop in which the `unwrap()` of the
`locked` option is modelled as fallible: it returns `none` exactly when
the unwrap would panic.  Used to show the unwrap is unreachable. -/
def parse_inputs_checked_aux : List (String × Node) → List (String × String) →
    Option (List (String × String))
  | [], data => some data
  | (k, v) :: rest, data =>
      if v.locked.isNone then
        parse_inputs_checked_aux rest data
      else
        match v.locked with
        | none => none
        | some lock => parse_inputs_checked_aux rest (insertEntry data k (flake_uri lock))

/-- `parse_inputs` with the fallible unwrap model. -/
def parse_inputs_checked (flake_lock : FlakeLock) : Option (List (String × String)) :=
  parse_inputs_checked_aux flake_lock.nodes []

/-- The effect of `duplicates.entry(uri).or_default().push(name)` on a
map modelled as an association list: append `name` to the group at key
`uri`, creating a fresh one-element group if the key is absent. -/
def pushEntry : List (String × List String) → String → String → List (String × List String)
  | [], k, v => [(k, [v])]
  | (k', vs) :: rest, k, v =>
      if k' = k then (k', vs ++ [v]) :: rest else (k', vs) :: pushEntry rest k v

/-- The loop of `find_duplicates` from src/main.rs: iterate the
name-to-URI mapping keeping a list of URIs seen so far; a name whose URI
was already seen is appended to that URI's duplicate group. -/
def find_duplicates_aux : List (String × String) → List String →
    List (String × List String) → List (String × List String)
  | [], _, duplicates => duplicates
  | (input_name, input_uri) :: rest, seen, duplicates =>
      if input_uri ∈ seen then
        find_duplicates_aux rest seen (pushEntry duplicates input_uri input_name)
      else
        find_duplicates_aux rest (seen ++ [input_uri]) duplicates

/-- `find_duplicates` from src/main.rs. -/
def find_duplicates (inputs : List (String × String)) : List (String × List String) :=
  find_duplicates_aux inputs [] []

/-- The possible run outcomes of `main` from src/main.rs, one per
process-exit site (plus the two failure exits of `argh::from_env`,
`fs::read_to_string` and `serde_json::from_str` surfaced before the
version check, and the help screen printed by `argh`). -/
inductive MainResult where
  | helpShown
  | ioFailure
  | decodeFailure
  | unsupportedVersion (v : Nat)
  | noDuplicates
  | duplicatesFound (duplicates : List (String × List String))
  deriving DecidableEq

/-- The state `main` is in after argument parsing, file reading and
JSON decoding: help requested, read failure, decode failure, or a
successfully decoded `FlakeLock`. -/
inductive ProgInput where
  | helpRequested
  | readError
  | decodeError
  | ok (flake_lock : FlakeLock)
  deriving DecidableEq

/-- The body of `main` from src/main.rs after the I/O prologue: check
the version, canonicalize, detect duplicates, report. -/
def runMain : ProgInput → MainResult
  | ProgInput.helpRequested => MainResult.helpShown
  | ProgInput.readError => MainResult.ioFailure
  | ProgInput.decodeError => MainResult.decodeFailure
  | ProgInput.ok flake_lock =>
      if flake_lock.version ≠ 7 then
        MainResult.unsupportedVersion flake_lock.version
      else
        let inputs := parse_inputs flake_lock
        let duplicates := find_duplicates inputs
        if duplicates.isEmpty then
          MainResult.noDuplicates
        else
          MainResult.duplicatesFound duplicates

/-- The process exit status of each outcome of `main` from src/main.rs. -/
def exitCode : MainResult → Nat
  | MainResult.helpShown => 0
  | MainResult.ioFailure => 1
  | MainResult.decodeFailure => 1
  | MainResult.unsupportedVersion _ => 1
  | MainResult.noDuplicates => 0
  | MainResult.duplicatesFound _ => 1

/-! JSON values and the decoder.  The decoder models the `serde` derived
`Deserialize` implementations for `FlakeLock`, `Node` and `Locked`
(`serde_json::from_str`), applied to an already-parsed JSON value:

  - struct fields are matched by name, unknown fields are ignored (no
    `deny_unknown_fields`), a missing or ill-typed required field is an
    error;
  - an `Option` field is `None` when absent or JSON `null`;
  - `Locked` is internally tagged (`tag = "type"`) with variant names
    renamed to lowercase; an absent, non-string or unknown tag is an
    error, and each variant requires its own string fields.

JSON numbers are modelled as integers (the only numeric field, `version`,
is a `usize`, which rejects non-integral numbers anyway). -/

/-- A parsed JSON document. -/
inductive Json where
  | null
  | bool (b : Bool)
  | num (n : Int)
  | str (s : String)
  | arr (elems : List Json)
  | obj (fields : List (String × Json))

/-- First binding of a key in a JSON object's field list (field-name
lookup as serde performs it). -/
def lookupField : List (String × Json) → String → Option Json
  | [], _ => none
  | (k', v) :: rest, k => if k' = k then some v else lookupField rest k

/-- Whether an `Except` result is a success. -/
def isOkE {ε α : Type} : Except ε α → Bool
  | Except.ok _ => true
  | Except.error _ => false

/-- Decode a required string field of an object, as serde does for a
`String` struct field. -/
def getStrField (fields : List (String × Json)) (k : String) : Except String String :=
  match lookupField fields k with
  | some (Json.str s) => Except.ok s
  | some _ => Except.error ("invalid type for field " ++ k)
  | none => Except.error ("missing field " ++ k)

/-- Decode an SCM variant body of `Locked` (string fields `owner` and
`repo`). -/
def decodeScm (fields : List (String × Json)) (mk : String → String → Locked) :
    Except String Locked :=
  match getStrField fields "owner" with
  | Except.error e => Except.error e
  | Except.ok owner =>
      match getStrField fields "repo" with
      | Except.error e => Except.error e
      | Except.ok repo => Except.ok (mk owner repo)

/-- Decode a URL variant body of `Locked` (string field `url`). -/
def decodeUrl (fields : List (String × Json)) (mk : String → Locked) :
    Except String Locked :=
  match getStrField fields "url" with
  | Except.error e => Except.error e
  | Except.ok url => Except.ok (mk url)

/-- Decode the path variant body of `Locked` (string field `path`). -/
def decodePathVariant (fields : List (String × Json)) : Except String Locked :=
  match getStrField fields "path" with
  | Except.error e => Except.error e
  | Except.ok p => Except.ok (Locked.Path p)

/-- Dispatch of the internally tagged `Locked` decoding on the value of
the `type` tag, with the seven lowercase variant names. -/
def decodeTagged (fields : List (String × Json)) (t : String) : Except String Locked :=
  if t = "github" then decodeScm fields Locked.GitHub
  else if t = "gitlab" then decodeScm fields Locked.GitLab
  else if t = "sourcehut" then decodeScm fields Locked.SourceHut
  else if t = "git" then decodeUrl fields Locked.Git
  else if t = "hg" then decodeUrl fields Locked.Hg
  else if t = "tarball" then decodeUrl fields Locked.Tarball
  else if t = "path" then decodePathVariant fields
  else Except.error ("unknown variant " ++ t)

/-- Decode a `Locked` record: internally tagged on the string field
`type`. -/
def decodeLocked (j : Json) : Except String Locked :=
  match j with
  | Json.obj fields =>
      match lookupField fields "type" with
      | some (Json.str t) => decodeTagged fields t
      | some _ => Except.error "invalid type for tag field"
      | none => Except.error "missing tag field"
  | _ => Except.error "invalid type: expected object for Locked"

/-- Wrap a decoded `Locked` value as a `Node` with a present `locked`. -/
def decodeLockedAsNode (lj : Json) : Except String Node :=
  match decodeLocked lj with
  | Except.error e => Except.error e
  | Except.ok lock => Except.ok { locked := some lock }

/-- Decode a `Node`: an object whose optional `locked` field is `None`
when absent or null. -/
def decodeNode (j : Json) : Except String Node :=
  match j with
  | Json.obj fields =>
      match lookupField fields "locked" with
      | none => Except.ok { locked := none }
      | some Json.null => Except.ok { locked := none }
      | some lj => decodeLockedAsNode lj
  | _ => Except.error "invalid type: expected object for Node"

/-- Decode the members of the `nodes` object, one `Node` per member. -/
def decodeNodes : List (String × Json) → Except String (List (String × Node))
  | [] => Except.ok []
  | (k, vj) :: rest =>
      match decodeNode vj with
      | Except.error e => Except.error e
      | Except.ok node =>
          match decodeNodes rest with
          | Except.error e => Except.error e
          | Except.ok nodes => Except.ok ((k, node) :: nodes)

/-- Decode a `usize` (the `version` field): a non-negative integer. -/
def decodeUsize (j : Json) : Except String Nat :=
  match j with
  | Json.num n => if 0 ≤ n then Except.ok n.toNat else Except.error "invalid value: negative"
  | _ => Except.error "invalid type: expected usize"

/-- Decode a `FlakeLock`: an object with required fields `nodes` (an
object of nodes), `version` (a `usize`) and `root` (a string); other
fields are ignored. -/
def decodeFlakeLock (j : Json) : Except String FlakeLock :=
  match j with
  | Json.obj fields =>
      match lookupField fields "nodes" with
      | none => Except.error "missing field nodes"
      | some nodesJ =>
          match nodesJ with
          | Json.obj nodeFields =>
              match decodeNodes nodeFields with
              | Except.error e => Except.error e
              | Except.ok nodes =>
                  match lookupField fields "version" with
                  | none => Except.error "missing field version"
                  | some vJ =>
                      match decodeUsize vJ with
                      | Except.error e => Except.error e
                      | Except.ok version =>
                          match getStrField fields "root" with
                          | Except.error e => Except.error e
                          | Except.ok root =>
                              Except.ok { nodes := nodes, version := version, root := root }
          | _ => Except.error "invalid type for field nodes"
  | _ => Except.error "invalid type: expected object for FlakeLock"

/-! Declarative well-formedness predicates, written from the
specification's description of the input schema (section 6 and the
Decoder contract in section 4.1), for comparison with the decoder. -/

/-- Whether field `k` of an object is present with a string value. -/
def isStrAt (fields : List (String × Json)) (k : String) : Bool :=
  match lookupField fields k with
  | some (Json.str _) => true
  | _ => false

/-- Spec description of a valid locked record: an object whose `type`
tag is a string naming one of the seven kinds, carrying the string
fields that kind requires (`owner` and `repo` for SCM kinds, `url` for
URL kinds, `path` for the path kind). -/
def specLockedOk (j : Json) : Bool :=
  match j with
  | Json.obj fields =>
      match lookupField fields "type" with
      | some (Json.str t) =>
          if t = "github" ∨ t = "gitlab" ∨ t = "sourcehut" then
            isStrAt fields "owner" && isStrAt fields "repo"
          else if t = "git" ∨ t = "hg" ∨ t = "tarball" then
            isStrAt fields "url"
          else if t = "path" then
            isStrAt fields "path"
          else false
      | _ => false
  | _ => false

/-- Spec description of a valid node: an object whose `locked` member,
when present and non-null, is a valid locked record. -/
def specNodeOk (j : Json) : Bool :=
  match j with
  | Json.obj fields =>
      match lookupField fields "locked" with
      | none => true
      | some Json.null => true
      | some lj => specLockedOk lj
  | _ => false

/-- Spec description of a decodable document: an object with a `nodes`
member that is an object of valid nodes, an integer `version` member,
and a string `root` member. -/
def specDocOk (j : Json) : Bool :=
  match j with
  | Json.obj fields =>
      (match lookupField fields "nodes" with
       | some (Json.obj nodeFields) => nodeFields.all (fun p => specNodeOk p.2)
       | _ => false)
      && (match lookupField fields "version" with
          | some (Json.num n) => decide (0 ≤ n)
          | _ => false)
      && isStrAt fields "root"
  | _ => false

/-- The group recorded under key `k` in a duplicates map modelled as an
association list; `[]` when the key is absent. -/
def groupOf : List (String × List String) → String → List String
  | [], _ => []
  | (k', vs) :: rest, k => if k' = k then vs else groupOf rest k

/-- The names of an input mapping associated with a given URI, in
iteration order. -/
def dupNames : List (String × String) → String → List String
  | [], _ => []
  | (name, u) :: rest, uri =>
      if u = uri then name :: dupNames rest uri else dupNames rest uri

/-- One entry per node whose `locked` is present: the reference
description of `parse_inputs` as a `filterMap`. -/
def lockedEntries (nodes : List (String × Node)) : List (String × String) :=
  nodes.filterMap (fun p =>
    match p.2.locked with
    | none => none
    | some lock => some (p.1, flake_uri lock))

/-- A concrete well-formed lock with distinct canonical URIs (shaped
like the fixture in the src/main.rs test module, without the duplicated
entries). -/
def exampleLock : FlakeLock :=
  { nodes :=
      [("input1", { locked := some (Locked.GitHub "user1" "repo1") }),
       ("input2", { locked := some (Locked.GitHub "user2" "repo2") }),
       ("input4", { locked := some (Locked.Git "https://example.com/repo.git") }),
       ("root", { locked := none })],
    version := 7,
    root := "root" }

/-- A concrete lock whose version is not the supported one. -/
def badVersionLock : FlakeLock :=
  { nodes := [("input1", { locked := some (Locked.GitHub "user1" "repo1") })],
    version := 8,
    root := "root" }

/-! Helper lemmas. -/

theorem parse_inputs_checked_aux_eq (l : List (String × Node)) :
    ∀ data, parse_inputs_checked_aux l data = some (parse_inputs_aux l data) := by
  induction l with
  | nil => intro data; rfl
  | cons p rest ih =>
      intro data
      obtain ⟨k, v⟩ := p
      by_cases h : v.locked.isNone
      · simp [parse_inputs_checked_aux, parse_inputs_aux, h, ih]
      · match hl : v.locked with
        | none => simp [hl] at h
        | some lock =>
            simp [parse_inputs_checked_aux, parse_inputs_aux, h, hl, ih]

theorem groupOf_pushEntry_self (m : List (String × List String)) (k v : String) :
    groupOf (pushEntry m k v) k = groupOf m k ++ [v] := by
  induction m with
  | nil => simp [pushEntry, groupOf]
  | cons p rest ih =>
      obtain ⟨k', vs⟩ := p
      by_cases h : k' = k
      · simp [pushEntry, groupOf, h]
      · simp [pushEntry, groupOf, h, ih]

theorem groupOf_pushEntry_other (m : List (String × List String)) (k v k2 : String)
    (h : k2 ≠ k) : groupOf (pushEntry m k v) k2 = groupOf m k2 := by
  induction m with
  | nil => simp [pushEntry, groupOf, Ne.symm h]
  | cons p rest ih =>
      obtain ⟨k', vs⟩ := p
      by_cases h2 : k' = k
      · simp [pushEntry, groupOf, h2, Ne.symm h]
      · simp [pushEntry, groupOf, h2, ih]

theorem groupOf_find_duplicates_aux (l : List (String × String)) :
    ∀ (seen : List String) (dups : List (String × List String)) (uri : String),
      groupOf (find_duplicates_aux l seen dups) uri =
        groupOf dups uri ++
          (if uri ∈ seen then dupNames l uri else (dupNames l uri).tail) := by
  induction l with
  | nil =>
      intro seen dups uri
      simp [find_duplicates_aux, dupNames]
  | cons p rest ih =>
      intro seen dups uri
      obtain ⟨name, u⟩ := p
      by_cases hs : u ∈ seen
      · rw [show find_duplicates_aux ((name, u) :: rest) seen dups =
              find_duplicates_aux rest seen (pushEntry dups u name) by
            simp [find_duplicates_aux, hs]]
        rw [ih]
        by_cases he : u = uri
        · subst he
          rw [groupOf_pushEntry_self]
          simp [dupNames, hs, List.append_assoc]
        · rw [groupOf_pushEntry_other _ _ _ _ (Ne.symm he)]
          simp [dupNames, he]
      · rw [show find_duplicates_aux ((name, u) :: rest) seen dups =
              find_duplicates_aux rest (seen ++ [u]) dups by
            simp [find_duplicates_aux, hs]]
        rw [ih]
        by_cases he : u = uri
        · subst he
          simp [dupNames, hs, List.mem_append]
        · simp [dupNames, he, Ne.symm he, List.mem_append]

theorem groupOf_find_duplicates (l : List (String × String)) (uri : String) :
    groupOf (find_duplicates l) uri = (dupNames l uri).tail := by
  rw [find_duplicates, groupOf_find_duplicates_aux]
  simp [groupOf]

theorem mem_keys_of_groupOf_ne_nil (m : List (String × List String)) (k : String)
    (h : groupOf m k ≠ []) : k ∈ m.map Prod.fst := by
  induction m with
  | nil => simp [groupOf] at h
  | cons p rest ih =>
      obtain ⟨k', vs⟩ := p
      by_cases h2 : k' = k
      · simp [h2]
      · rw [show groupOf ((k', vs) :: rest) k = groupOf rest k by simp [groupOf, h2]] at h
        simp [ih h]

theorem groupOf_ne_nil_of_mem_keys (m : List (String × List String)) (k : String)
    (hvals : ∀ p ∈ m, p.2 ≠ ([] : List String)) (h : k ∈ m.map Prod.fst) :
    groupOf m k ≠ [] := by
  induction m with
  | nil => simp at h
  | cons p rest ih =>
      obtain ⟨k', vs⟩ := p
      by_cases h2 : k' = k
      · have hv := hvals (k', vs) (by simp)
        simpa [groupOf, h2] using hv
      · rw [show groupOf ((k', vs) :: rest) k = groupOf rest k by simp [groupOf, h2]]
        rw [List.map_cons, List.mem_cons] at h
        rcases h with h | h
        · exact absurd h.symm h2
        · exact ih (fun p hp => hvals p (List.mem_cons_of_mem _ hp)) h

theorem pushEntry_values_ne_nil (m : List (String × List String)) (k v : String)
    (hvals : ∀ p ∈ m, p.2 ≠ ([] : List String)) :
    ∀ p ∈ pushEntry m k v, p.2 ≠ ([] : List String) := by
  induction m with
  | nil =>
      intro p hp
      simp [pushEntry, List.mem_singleton] at hp
      simp [hp]
  | cons q rest ih =>
      obtain ⟨k', vs⟩ := q
      intro p hp
      by_cases h2 : k' = k
      · rw [show pushEntry ((k', vs) :: rest) k v = (k', vs ++ [v]) :: rest by
            simp [pushEntry, h2]] at hp
        rcases List.mem_cons.mp hp with hp | hp
        · simp [hp]
        · exact hvals p (List.mem_cons_of_mem _ hp)
      · rw [show pushEntry ((k', vs) :: rest) k v = (k', vs) :: pushEntry rest k v by
            simp [pushEntry, h2]] at hp
        rcases List.mem_cons.mp hp with hp | hp
        · subst hp
          exact hvals (k', vs) (by simp)
        · exact ih (fun q hq => hvals q (List.mem_cons_of_mem _ hq)) p hp

theorem find_duplicates_aux_values_ne_nil (l : List (String × String)) :
    ∀ (seen : List String) (dups : List (String × List String)),
      (∀ p ∈ dups, p.2 ≠ ([] : List String)) →
      ∀ p ∈ find_duplicates_aux l seen dups, p.2 ≠ ([] : List String) := by
  induction l with
  | nil =>
      intro seen dups h p hp
      exact h p hp
  | cons q rest ih =>
      obtain ⟨name, u⟩ := q
      intro seen dups h p hp
      by_cases hs : u ∈ seen
      · rw [show find_duplicates_aux ((name, u) :: rest) seen dups =
              find_duplicates_aux rest seen (pushEntry dups u name) by
            simp [find_duplicates_aux, hs]] at hp
        exact ih _ _ (pushEntry_values_ne_nil _ _ _ h) p hp
      · rw [show find_duplicates_aux ((name, u) :: rest) seen dups =
              find_duplicates_aux rest (seen ++ [u]) dups by
            simp [find_duplicates_aux, hs]] at hp
        exact ih _ _ h p hp

theorem mem_keys_find_duplicates_iff (l : List (String × String)) (uri : String) :
    uri ∈ (find_duplicates l).map Prod.fst ↔ (dupNames l uri).tail ≠ [] := by
  constructor
  · intro h
    rw [← groupOf_find_duplicates]
    exact groupOf_ne_nil_of_mem_keys _ _
      (find_duplicates_aux_values_ne_nil _ _ _ (by simp)) h
  · intro h
    exact mem_keys_of_groupOf_ne_nil _ _ (by rw [groupOf_find_duplicates]; exact h)

theorem dupNames_eq_filterMap (l : List (String × String)) (uri : String) :
    dupNames l uri = l.filterMap (fun p => if p.2 = uri then some p.1 else none) := by
  induction l with
  | nil => rfl
  | cons p rest ih =>
      obtain ⟨name, u⟩ := p
      by_cases h : u = uri <;> simp [dupNames, h, ih, List.filterMap_cons]

theorem dupNames_perm (l₁ l₂ : List (String × String)) (hp : l₁.Perm l₂) (uri : String) :
    (dupNames l₁ uri).Perm (dupNames l₂ uri) := by
  rw [dupNames_eq_filterMap, dupNames_eq_filterMap]
  exact hp.filterMap _

theorem dupNames_sublist (l : List (String × String)) (uri : String) :
    (dupNames l uri).Sublist (l.map Prod.fst) := by
  induction l with
  | nil => simp [dupNames]
  | cons p rest ih =>
      obtain ⟨name, u⟩ := p
      by_cases h : u = uri
      · rw [show dupNames ((name, u) :: rest) uri = name :: dupNames rest uri by
            simp [dupNames, h]]
        exact ih.cons₂ _
      · rw [show dupNames ((name, u) :: rest) uri = dupNames rest uri by
            simp [dupNames, h]]
        exact ih.cons _

theorem find_duplicates_aux_of_fresh (l : List (String × String)) :
    ∀ (seen : List String) (dups : List (String × List String)),
      (l.map Prod.snd).Nodup → (∀ u ∈ l.map Prod.snd, u ∉ seen) →
      find_duplicates_aux l seen dups = dups := by
  induction l with
  | nil => intro seen dups _ _; rfl
  | cons p rest ih =>
      obtain ⟨name, u⟩ := p
      intro seen dups hnd hdisj
      have hs : u ∉ seen := hdisj u (by simp)
      rw [show find_duplicates_aux ((name, u) :: rest) seen dups =
            find_duplicates_aux rest (seen ++ [u]) dups by
          simp [find_duplicates_aux, hs]]
      rw [List.map_cons] at hnd
      have hnd1 := (List.nodup_cons.mp hnd).1
      have hnd2 := (List.nodup_cons.mp hnd).2
      apply ih _ _ hnd2
      intro v hv hmem
      rcases List.mem_append.mp hmem with hvs | hvu
      · exact hdisj v (by rw [List.map_cons]; exact List.mem_cons_of_mem _ hv) hvs
      · rw [List.mem_singleton] at hvu
        exact hnd1 (by rwa [hvu] at hv)

theorem find_duplicates_of_nodup_values (l : List (String × String))
    (h : (l.map Prod.snd).Nodup) : find_duplicates l = [] := by
  rw [find_duplicates]
  exact find_duplicates_aux_of_fresh l [] [] h (by simp)

theorem insertEntry_fresh (data : List (String × String)) (k v : String)
    (h : k ∉ data.map Prod.fst) : insertEntry data k v = data ++ [(k, v)] := by
  induction data with
  | nil => rfl
  | cons p rest ih =>
      obtain ⟨k', v'⟩ := p
      rw [List.map_cons, List.mem_cons] at h
      have h1 : ¬k = k' := fun hk => h (Or.inl hk)
      have h1s : ¬k' = k := fun hk => h1 hk.symm
      have h2 : k ∉ rest.map Prod.fst := fun hk => h (Or.inr hk)
      simp [insertEntry, h1s, ih h2]

theorem parse_inputs_aux_eq (nodes : List (String × Node)) :
    ∀ data : List (String × String), (nodes.map Prod.fst).Nodup →
      (∀ p ∈ nodes, p.1 ∉ data.map Prod.fst) →
      parse_inputs_aux nodes data = data ++ lockedEntries nodes := by
  induction nodes with
  | nil => intro data _ _; simp [parse_inputs_aux, lockedEntries]
  | cons p rest ih =>
      obtain ⟨k, v⟩ := p
      intro data hnd hfresh
      rw [List.map_cons] at hnd
      have hnd1 := (List.nodup_cons.mp hnd).1
      have hnd2 := (List.nodup_cons.mp hnd).2
      match hl : v.locked with
      | none =>
          rw [show parse_inputs_aux ((k, v) :: rest) data = parse_inputs_aux rest data by
                simp [parse_inputs_aux, hl]]
          rw [ih data hnd2 (fun q hq => hfresh q (List.mem_cons_of_mem _ hq))]
          simp [lockedEntries, List.filterMap_cons, hl]
      | some lock =>
          rw [show parse_inputs_aux ((k, v) :: rest) data =
                parse_inputs_aux rest (insertEntry data k (flake_uri lock)) by
              simp [parse_inputs_aux, hl]]
          rw [insertEntry_fresh data k _ (hfresh (k, v) (by simp))]
          rw [ih (data ++ [(k, flake_uri lock)]) hnd2 ?_]
          · simp [lockedEntries, List.filterMap_cons, hl]
          · intro q hq hmem
            rw [List.map_append, List.mem_append] at hmem
            rcases hmem with hm | hm
            · exact hfresh q (List.mem_cons_of_mem _ hq) hm
            · have hq1 : q.1 ∈ rest.map Prod.fst := List.mem_map_of_mem Prod.fst hq
              rw [List.map_singleton, List.mem_singleton] at hm
              exact hnd1 (hm ▸ hq1)

theorem lockedEntries_keys (nodes : List (String × Node)) :
    (lockedEntries nodes).map Prod.fst =
      (nodes.filter (fun p => p.2.locked.isSome)).map Prod.fst := by
  induction nodes with
  | nil => rfl
  | cons p rest ih =>
      obtain ⟨k, v⟩ := p
      match hl : v.locked with
      | none =>
          rw [show lockedEntries ((k, v) :: rest) = lockedEntries rest by
                simp [lockedEntries, List.filterMap_cons, hl]]
          rw [show List.filter (fun p => p.2.locked.isSome) ((k, v) :: rest) =
                List.filter (fun p => p.2.locked.isSome) rest by
              simp [List.filter_cons, hl]]
          exact ih
      | some lock =>
          rw [show lockedEntries ((k, v) :: rest) = (k, flake_uri lock) :: lockedEntries rest by
                simp [lockedEntries, List.filterMap_cons, hl]]
          rw [show List.filter (fun p => p.2.locked.isSome) ((k, v) :: rest) =
                (k, v) :: List.filter (fun p => p.2.locked.isSome) rest by
              simp [List.filter_cons, hl]]
          simp [ih]

theorem parse_inputs_eq_lockedEntries (flake_lock : FlakeLock)
    (h : (flake_lock.nodes.map Prod.fst).Nodup) :
    parse_inputs flake_lock = lockedEntries flake_lock.nodes := by
  rw [parse_inputs, parse_inputs_aux_eq flake_lock.nodes [] h (by simp)]
  simp

/-! Claim theorems. -/

/-- C1: for every SCM-kind locked source (github, gitlab, sourcehut)
with owner `o` and repo `r`, canonicalization produces exactly
`<kind>:<lowercase o>/<lowercase r>`; in particular the GitHub record
with owner `User1` and repo `Repo1` canonicalizes to
`github:user1/repo1` regardless of input casing. -/
theorem c1_scm_canonicalization :
    (∀ owner repo, flake_uri (Locked.GitHub owner repo) =
        "github:" ++ rustToLowercase owner ++ "/" ++ rustToLowercase repo) ∧
    (∀ owner repo, flake_uri (Locked.GitLab owner repo) =
        "gitlab:" ++ rustToLowercase owner ++ "/" ++ rustToLowercase repo) ∧
    (∀ owner repo, flake_uri (Locked.SourceHut owner repo) =
        "sourcehut:" ++ rustToLowercase owner ++ "/" ++ rustToLowercase repo) ∧
    flake_uri (Locked.GitHub "User1" "Repo1") = "github:user1/repo1" :=
  ⟨fun _ _ => rfl, fun _ _ => rfl, fun _ _ => rfl, rfl⟩

/-- C3: for every URL-kind locked source (git, hg, tarball) with url
`u`, canonicalization produces exactly `<kind>:<u>` with `u` taken
verbatim, and for every path-kind source with path `p` it produces
exactly `path:<p>`. -/
theorem c3_url_and_path_canonicalization :
    (∀ url, flake_uri (Locked.Git url) = "git:" ++ url) ∧
    (∀ url, flake_uri (Locked.Hg url) = "hg:" ++ url) ∧
    (∀ url, flake_uri (Locked.Tarball url) = "tarball:" ++ url) ∧
    (∀ p, flake_uri (Locked.Path p) = "path:" ++ p) ∧
    flake_uri (Locked.Git "https://example.com/repo.git") =
      "git:https://example.com/repo.git" :=
  ⟨fun _ => rfl, fun _ => rfl, fun _ => rfl, fun _ => rfl, rfl⟩

/-- C8: canonicalization is total on decoded locked sources: `flake_uri`
is a total function into strings, and the `unwrap()` of the `locked`
option inside the `parse_inputs` loop is unreachable — modelling the
unwrap as fallible, the loop succeeds on every `FlakeLock` and returns
exactly the value computed by `parse_inputs`. -/
theorem c8_canonicalization_total (flake_lock : FlakeLock) :
    parse_inputs_checked flake_lock = some (parse_inputs flake_lock) :=
  parse_inputs_checked_aux_eq flake_lock.nodes []

/-- C2: on the mapping input1 to A, input2 to B, input3 to A, input4 to
C, input5 to C (A, B, C pairwise distinct, iterated in that order) the
duplicate detector returns exactly the two groups A to [input3] and C to
[input5]; in general, for every input mapping with distinct names, the
first name associated with a URI never appears in that URI's duplicate
group. -/
theorem c2_duplicate_groups (A B C : String)
    (hAB : A ≠ B) (hAC : A ≠ C) (hBC : B ≠ C) :
    find_duplicates
        [("input1", A), ("input2", B), ("input3", A), ("input4", C), ("input5", C)] =
      [(A, ["input3"]), (C, ["input5"])] ∧
    (∀ (l : List (String × String)) (uri name : String) (rest : List String),
      (l.map Prod.fst).Nodup → dupNames l uri = name :: rest →
      name ∉ groupOf (find_duplicates l) uri) := by
  constructor
  · simp [find_duplicates, find_duplicates_aux, pushEntry,
      hAB.symm, hAC, hAC.symm, hBC.symm]
  · intro l uri name rest hnd hdn
    rw [groupOf_find_duplicates, hdn]
    have hsub : (dupNames l uri).Nodup := (dupNames_sublist l uri).nodup hnd
    rw [hdn] at hsub
    exact (List.nodup_cons.mp hsub).1

/-- C2 witness: the theorem applied at A, B, C instantiated to three
concrete distinct strings, and its general part applied to a concrete
two-element mapping. -/
theorem c2_duplicate_groups_witness :
    find_duplicates
        [("input1", "github:a/a"), ("input2", "github:b/b"), ("input3", "github:a/a"),
         ("input4", "github:c/c"), ("input5", "github:c/c")] =
      [("github:a/a", ["input3"]), ("github:c/c", ["input5"])] ∧
    "x" ∉ groupOf (find_duplicates [("x", "U"), ("y", "U")]) "U" :=
  ⟨(c2_duplicate_groups "github:a/a" "github:b/b" "github:c/c"
      (by decide) (by decide) (by decide)).1,
   (c2_duplicate_groups "a" "b" "c" (by decide) (by decide) (by decide)).2
      [("x", "U"), ("y", "U")] "U" "x" ["y"] (by decide) (by decide)⟩

/-- C4: for every lock whose node names are distinct (as they are for
any decoded document, since `nodes` is a map), the canonicalizer output
has exactly one entry per node whose `locked` value is present — it
equals the `filterMap` that skips nodes with an absent `locked` and maps
each remaining node name to its canonical URI — and its keys are exactly
the names of the nodes with a present `locked`. -/
theorem c4_one_entry_per_locked_node (flake_lock : FlakeLock)
    (h : (flake_lock.nodes.map Prod.fst).Nodup) :
    parse_inputs flake_lock = lockedEntries flake_lock.nodes ∧
    (parse_inputs flake_lock).map Prod.fst =
      (flake_lock.nodes.filter (fun p => p.2.locked.isSome)).map Prod.fst := by
  have h1 := parse_inputs_eq_lockedEntries flake_lock h
  exact ⟨h1, by rw [h1, lockedEntries_keys]⟩

/-- C4 witness: the theorem applied to a concrete lock with three locked
nodes and one inert node. -/
theorem c4_one_entry_per_locked_node_witness :
    parse_inputs exampleLock = lockedEntries exampleLock.nodes ∧
    (parse_inputs exampleLock).map Prod.fst =
      (exampleLock.nodes.filter (fun p => p.2.locked.isSome)).map Prod.fst :=
  c4_one_entry_per_locked_node exampleLock (by decide)

/-- C6: for every decoded document whose version is not 7, `main`
reports the found version and exits with status 1, and its outcome is
independent of the document's nodes — canonicalization and duplicate
detection are never invoked. -/
theorem c6_version_mismatch (flake_lock : FlakeLock) (h : flake_lock.version ≠ 7) :
    runMain (ProgInput.ok flake_lock) = MainResult.unsupportedVersion flake_lock.version ∧
    exitCode (runMain (ProgInput.ok flake_lock)) = 1 ∧
    (∀ other : FlakeLock, other.version = flake_lock.version →
      runMain (ProgInput.ok other) = runMain (ProgInput.ok flake_lock)) := by
  refine ⟨by simp [runMain, h], by simp [runMain, exitCode, h], ?_⟩
  intro other hv
  simp [runMain, hv, h]

/-- C6 witness: the theorem applied to a concrete version-8 lock. -/
theorem c6_version_mismatch_witness :
    runMain (ProgInput.ok badVersionLock) = MainResult.unsupportedVersion 8 ∧
    exitCode (runMain (ProgInput.ok badVersionLock)) = 1 :=
  ⟨(c6_version_mismatch badVersionLock (by decide)).1,
   (c6_version_mismatch badVersionLock (by decide)).2.1⟩

/-- C7: the exit code is always 0 or 1; it is 0 exactly when help was
requested, or the document decoded with version 7 and the duplicate
detector returned an empty result; and a version-7 document whose locked
nodes all map to distinct canonical URIs yields an empty duplicate
result and exit 0. -/
theorem c7_exit_codes :
    (∀ i, exitCode (runMain i) = 0 ∨ exitCode (runMain i) = 1) ∧
    (∀ i, exitCode (runMain i) = 0 ↔
      (i = ProgInput.helpRequested ∨
        ∃ flake_lock, i = ProgInput.ok flake_lock ∧ flake_lock.version = 7 ∧
          find_duplicates (parse_inputs flake_lock) = [])) ∧
    (∀ flake_lock : FlakeLock, flake_lock.version = 7 →
      ((parse_inputs flake_lock).map Prod.snd).Nodup →
      find_duplicates (parse_inputs flake_lock) = [] ∧
      exitCode (runMain (ProgInput.ok flake_lock)) = 0) := by
  refine ⟨?_, ?_, ?_⟩
  · intro i
    cases i with
    | helpRequested => left; rfl
    | readError => right; rfl
    | decodeError => right; rfl
    | ok flake_lock =>
        by_cases hv : flake_lock.version = 7
        · by_cases hd : (find_duplicates (parse_inputs flake_lock)).isEmpty
          · left; simp [runMain, hv, hd, exitCode]
          · right; simp [runMain, hv, hd, exitCode]
        · right; simp [runMain, hv, exitCode]
  · intro i
    cases i with
    | helpRequested => simp [runMain, exitCode]
    | readError => simp [runMain, exitCode]
    | decodeError => simp [runMain, exitCode]
    | ok flake_lock =>
        by_cases hv : flake_lock.version = 7
        · by_cases hd : find_duplicates (parse_inputs flake_lock) = []
          · simp [runMain, hv, hd, exitCode, List.isEmpty_iff]
          · simp [runMain, hv, hd, exitCode, List.isEmpty_iff]
        · simp [runMain, hv, exitCode]
  · intro flake_lock hv hnd
    have hd := find_duplicates_of_nodup_values _ hnd
    exact ⟨hd, by simp [runMain, hv, hd, exitCode, List.isEmpty_iff]⟩

/-- C7 witness: the no-duplicate conjunct applied to a concrete
version-7 lock with three distinct canonical URIs; its exit code is 0. -/
theorem c7_exit_codes_witness :
    find_duplicates (parse_inputs exampleLock) = [] ∧
    exitCode (runMain (ProgInput.ok exampleLock)) = 0 :=
  c7_exit_codes.2.2 exampleLock (by decide) (by decide)

/-- C9 counterexample: the claim says the set of names recorded in each
duplicate group is the same for any two runs on equal input mappings.
The two lists below are permutations of one another — the same
name-to-URI mapping iterated in the two orders a run of the program may
produce — yet one run records name `b` in the group of URI `U` and the
other records name `a`. -/
theorem c9_group_membership_counterexample :
    ([("a", "U"), ("b", "U")] : List (String × String)).Perm [("b", "U"), ("a", "U")] ∧
    ((([("a", "U"), ("b", "U")] : List (String × String)).map Prod.fst).Nodup) ∧
    groupOf (find_duplicates [("a", "U"), ("b", "U")]) "U" = ["b"] ∧
    groupOf (find_duplicates [("b", "U"), ("a", "U")]) "U" = ["a"] :=
  ⟨List.Perm.swap _ _ _, by decide, by decide, by decide⟩

/-- C9 (amended): over two runs on equal input mappings (two
permutations of the same name-to-URI list), the set of group keys and
the size of each group are identical; which names appear in a group
(all names sharing the URI except the first one seen) depends on the
iteration order. -/
theorem c9_deterministic_keys_and_sizes (l₁ l₂ : List (String × String))
    (hp : l₁.Perm l₂) (uri : String) :
    (uri ∈ (find_duplicates l₁).map Prod.fst ↔ uri ∈ (find_duplicates l₂).map Prod.fst) ∧
    (groupOf (find_duplicates l₁) uri).length = (groupOf (find_duplicates l₂) uri).length := by
  have hlen : (dupNames l₁ uri).length = (dupNames l₂ uri).length :=
    (dupNames_perm _ _ hp uri).length_eq
  constructor
  · rw [mem_keys_find_duplicates_iff, mem_keys_find_duplicates_iff]
    constructor
    · intro h
      rw [← List.length_pos, List.length_tail, ← hlen, ← List.length_tail, List.length_pos]
      exact h
    · intro h
      rw [← List.length_pos, List.length_tail, hlen, ← List.length_tail, List.length_pos]
      exact h
  · rw [groupOf_find_duplicates, groupOf_find_duplicates, List.length_tail,
      List.length_tail, hlen]

/-- C9 witness: the amended theorem applied to the two concrete
iteration orders of a two-name mapping. -/
theorem c9_deterministic_keys_and_sizes_witness :
    (groupOf (find_duplicates [("a", "U"), ("b", "U")]) "U").length =
      (groupOf (find_duplicates [("b", "U"), ("a", "U")]) "U").length :=
  (c9_deterministic_keys_and_sizes _ _ (List.Perm.swap _ _ _) "U").2

theorem isOkE_getStrField (fields : List (String × Json)) (k : String) :
    isOkE (getStrField fields k) = isStrAt fields k := by
  unfold getStrField isStrAt
  cases lookupField fields k with
  | none => rfl
  | some v => cases v <;> rfl

theorem isOkE_decodeScm (fields : List (String × Json)) (mk : String → String → Locked) :
    isOkE (decodeScm fields mk) = (isStrAt fields "owner" && isStrAt fields "repo") := by
  rw [← isOkE_getStrField fields "owner", ← isOkE_getStrField fields "repo"]
  unfold decodeScm
  cases getStrField fields "owner" <;> cases getStrField fields "repo" <;> rfl

theorem isOkE_decodeUrl (fields : List (String × Json)) (mk : String → Locked) :
    isOkE (decodeUrl fields mk) = isStrAt fields "url" := by
  rw [← isOkE_getStrField fields "url"]
  unfold decodeUrl
  cases getStrField fields "url" <;> rfl

theorem isOkE_decodePathVariant (fields : List (String × Json)) :
    isOkE (decodePathVariant fields) = isStrAt fields "path" := by
  rw [← isOkE_getStrField fields "path"]
  unfold decodePathVariant
  cases getStrField fields "path" <;> rfl

theorem isOkE_decodeTagged (fields : List (String × Json)) (t : String) :
    isOkE (decodeTagged fields t) =
      (if t = "github" ∨ t = "gitlab" ∨ t = "sourcehut" then
        isStrAt fields "owner" && isStrAt fields "repo"
      else if t = "git" ∨ t = "hg" ∨ t = "tarball" then isStrAt fields "url"
      else if t = "path" then isStrAt fields "path"
      else false) := by
  unfold decodeTagged
  by_cases h1 : t = "github"
  · simp [h1, isOkE_decodeScm]
  · by_cases h2 : t = "gitlab"
    · simp [h1, h2, isOkE_decodeScm]
    · by_cases h3 : t = "sourcehut"
      · simp [h1, h2, h3, isOkE_decodeScm]
      · by_cases h4 : t = "git"
        · simp [h1, h2, h3, h4, isOkE_decodeUrl]
        · by_cases h5 : t = "hg"
          · simp [h1, h2, h3, h4, h5, isOkE_decodeUrl]
          · by_cases h6 : t = "tarball"
            · simp [h1, h2, h3, h4, h5, h6, isOkE_decodeUrl]
            · by_cases h7 : t = "path"
              · simp [h1, h2, h3, h4, h5, h6, h7, isOkE_decodePathVariant]
              · simp [h1, h2, h3, h4, h5, h6, h7, isOkE]

theorem isOkE_decodeLocked (j : Json) : isOkE (decodeLocked j) = specLockedOk j := by
  cases j with
  | obj fields =>
      cases ht : lookupField fields "type" with
      | none => simp [decodeLocked, specLockedOk, ht, isOkE]
      | some v =>
          cases v with
          | str t => simp [decodeLocked, specLockedOk, ht, isOkE_decodeTagged]
          | null => simp [decodeLocked, specLockedOk, ht, isOkE]
          | bool b => simp [decodeLocked, specLockedOk, ht, isOkE]
          | num n => simp [decodeLocked, specLockedOk, ht, isOkE]
          | arr elems => simp [decodeLocked, specLockedOk, ht, isOkE]
          | obj fs => simp [decodeLocked, specLockedOk, ht, isOkE]
  | null => rfl
  | bool b => rfl
  | num n => rfl
  | str s => rfl
  | arr elems => rfl

theorem isOkE_decodeLockedAsNode (lj : Json) :
    isOkE (decodeLockedAsNode lj) = specLockedOk lj := by
  rw [← isOkE_decodeLocked]
  unfold decodeLockedAsNode
  cases decodeLocked lj <;> rfl

theorem isOkE_decodeNode (j : Json) : isOkE (decodeNode j) = specNodeOk j := by
  cases j with
  | obj fields =>
      cases hl : lookupField fields "locked" with
      | none => simp [decodeNode, specNodeOk, hl, isOkE]
      | some v =>
          cases v with
          | null => simp [decodeNode, specNodeOk, hl, isOkE]
          | bool b => simp [decodeNode, specNodeOk, hl, isOkE_decodeLockedAsNode]
          | num n => simp [decodeNode, specNodeOk, hl, isOkE_decodeLockedAsNode]
          | str s => simp [decodeNode, specNodeOk, hl, isOkE_decodeLockedAsNode]
          | arr elems => simp [decodeNode, specNodeOk, hl, isOkE_decodeLockedAsNode]
          | obj fs => simp [decodeNode, specNodeOk, hl, isOkE_decodeLockedAsNode]
  | null => rfl
  | bool b => rfl
  | num n => rfl
  | str s => rfl
  | arr elems => rfl

theorem isOkE_decodeNodes (nodeFields : List (String × Json)) :
    isOkE (decodeNodes nodeFields) = nodeFields.all (fun p => specNodeOk p.2) := by
  induction nodeFields with
  | nil => rfl
  | cons p rest ih =>
      obtain ⟨k, vj⟩ := p
      simp only [decodeNodes, List.all_cons]
      rw [← isOkE_decodeNode, ← ih]
      cases decodeNode vj <;> cases decodeNodes rest <;> rfl

theorem lookupField_none (l : List (String × Json)) (k : String)
    (h : ∀ p ∈ l, p.1 ≠ k) : lookupField l k = none := by
  induction l with
  | nil => rfl
  | cons p rest ih =>
      obtain ⟨k', v⟩ := p
      have h1 : ¬k' = k := h (k', v) (by simp)
      rw [show lookupField ((k', v) :: rest) k = lookupField rest k by
            simp [lookupField, h1]]
      exact ih fun q hq => h q (List.mem_cons_of_mem _ hq)

theorem lookupField_append (fields extra : List (String × Json)) (k : String)
    (h : ∀ p ∈ extra, p.1 ≠ k) :
    lookupField (fields ++ extra) k = lookupField fields k := by
  induction fields with
  | nil => simpa [lookupField] using lookupField_none extra k h
  | cons p rest ih =>
      obtain ⟨k', v⟩ := p
      by_cases h2 : k' = k <;> simp [lookupField, h2, ih]

theorem getStrField_append (fields extra : List (String × Json)) (k : String)
    (h : ∀ p ∈ extra, p.1 ≠ k) :
    getStrField (fields ++ extra) k = getStrField fields k := by
  unfold getStrField
  rw [lookupField_append _ _ _ h]

theorem decodeScm_append (fields extra : List (String × Json)) (mk : String → String → Locked)
    (ho : ∀ p ∈ extra, p.1 ≠ "owner") (hr : ∀ p ∈ extra, p.1 ≠ "repo") :
    decodeScm (fields ++ extra) mk = decodeScm fields mk := by
  unfold decodeScm
  rw [getStrField_append _ _ _ ho, getStrField_append _ _ _ hr]

theorem decodeUrl_append (fields extra : List (String × Json)) (mk : String → Locked)
    (hu : ∀ p ∈ extra, p.1 ≠ "url") :
    decodeUrl (fields ++ extra) mk = decodeUrl fields mk := by
  unfold decodeUrl
  rw [getStrField_append _ _ _ hu]

theorem decodePathVariant_append (fields extra : List (String × Json))
    (hp : ∀ p ∈ extra, p.1 ≠ "path") :
    decodePathVariant (fields ++ extra) = decodePathVariant fields := by
  unfold decodePathVariant
  rw [getStrField_append _ _ _ hp]

/-- C5 counterexample: a syntactically valid document carrying both
fields the claim lists as required, `nodes` (an empty object, so there
is no locked record whose tag or fields could be at fault) and
`version`, still fails to decode — the `root` field is also required by
the `FlakeLock` struct. -/
theorem c5_root_required_counterexample :
    (lookupField [("nodes", Json.obj []), ("version", Json.num 7)] "nodes").isSome = true ∧
    (lookupField [("nodes", Json.obj []), ("version", Json.num 7)] "version").isSome = true ∧
    isOkE (decodeFlakeLock (Json.obj [("nodes", Json.obj []), ("version", Json.num 7)])) =
      false :=
  ⟨rfl, rfl, rfl⟩

/-- C5 (amended): decoding a syntactically valid document succeeds
exactly when it is an object carrying a `nodes` field that is an object
of valid nodes (each node an object whose `locked` member, when present
and non-null, is an object whose string `type` tag names one of the
seven kinds and which carries that kind's required string fields), an
integer `version` field, and a string `root` field; in every other case
it fails with a decode error. -/
theorem c5_decode_success_characterization (j : Json) :
    isOkE (decodeFlakeLock j) = specDocOk j := by
  cases j with
  | obj fields =>
      cases hn : lookupField fields "nodes" with
      | none => simp [decodeFlakeLock, specDocOk, hn, isOkE]
      | some nodesJ =>
          cases nodesJ with
          | null => simp [decodeFlakeLock, specDocOk, hn, isOkE]
          | bool b => simp [decodeFlakeLock, specDocOk, hn, isOkE]
          | num n => simp [decodeFlakeLock, specDocOk, hn, isOkE]
          | str s => simp [decodeFlakeLock, specDocOk, hn, isOkE]
          | arr elems => simp [decodeFlakeLock, specDocOk, hn, isOkE]
          | obj nodeFields =>
              cases hd : decodeNodes nodeFields with
              | error e =>
                  have hall : nodeFields.all (fun p => specNodeOk p.2) = false := by
                    rw [← isOkE_decodeNodes, hd]; rfl
                  simp [decodeFlakeLock, specDocOk, hn, hd, hall, isOkE]
              | ok nodes =>
                  have hall : nodeFields.all (fun p => specNodeOk p.2) = true := by
                    rw [← isOkE_decodeNodes, hd]; rfl
                  cases hv : lookupField fields "version" with
                  | none => simp [decodeFlakeLock, specDocOk, hn, hd, hall, hv, isOkE]
                  | some vJ =>
                      cases vJ with
                      | null =>
                          simp [decodeFlakeLock, specDocOk, hn, hd, hall, hv,
                            decodeUsize, isOkE]
                      | bool b =>
                          simp [decodeFlakeLock, specDocOk, hn, hd, hall, hv,
                            decodeUsize, isOkE]
                      | str s =>
                          simp [decodeFlakeLock, specDocOk, hn, hd, hall, hv,
                            decodeUsize, isOkE]
                      | arr elems =>
                          simp [decodeFlakeLock, specDocOk, hn, hd, hall, hv,
                            decodeUsize, isOkE]
                      | obj fs =>
                          simp [decodeFlakeLock, specDocOk, hn, hd, hall, hv,
                            decodeUsize, isOkE]
                      | num n =>
                          by_cases h0 : (0 : Int) ≤ n
                          · cases hr : getStrField fields "root" with
                            | error e2 =>
                                simp [decodeFlakeLock, specDocOk, hn, hd, hall, hv, hr,
                                  decodeUsize, h0, isOkE, ← isOkE_getStrField]
                            | ok root =>
                                simp [decodeFlakeLock, specDocOk, hn, hd, hall, hv, hr,
                                  decodeUsize, h0, isOkE, ← isOkE_getStrField]
                          · simp [decodeFlakeLock, specDocOk, hn, hd, hall, hv,
                              decodeUsize, h0, isOkE]
  | null => rfl
  | bool b => rfl
  | num n => rfl
  | str s => rfl
  | arr elems => rfl

/-- C10: decoding ignores unrecognized fields at every level — adding
fields with names other than the ones a record reads (top level:
`nodes`, `version`, `root`; node level: `locked`; locked level: `type`
and the kind fields `owner`, `repo`, `url`, `path`) never changes the
decode result; in particular a github locked record carrying extra
`rev` and `narHash` fields decodes to exactly the same value as the
record without them. -/
theorem c10_unknown_fields_ignored :
    (∀ fields extra : List (String × Json),
      (∀ p ∈ extra, p.1 ∉ (["nodes", "version", "root"] : List String)) →
      decodeFlakeLock (Json.obj (fields ++ extra)) = decodeFlakeLock (Json.obj fields)) ∧
    (∀ fields extra : List (String × Json),
      (∀ p ∈ extra, p.1 ≠ "locked") →
      decodeNode (Json.obj (fields ++ extra)) = decodeNode (Json.obj fields)) ∧
    (∀ fields extra : List (String × Json),
      (∀ p ∈ extra, p.1 ∉ (["type", "owner", "repo", "url", "path"] : List String)) →
      decodeLocked (Json.obj (fields ++ extra)) = decodeLocked (Json.obj fields)) ∧
    decodeLocked (Json.obj
        [("type", Json.str "github"), ("owner", Json.str "user1"),
         ("repo", Json.str "repo1"), ("rev", Json.str "0123abcd"),
         ("narHash", Json.str "sha256-AAAA")]) =
      Except.ok (Locked.GitHub "user1" "repo1") := by
  refine ⟨?_, ?_, ?_, rfl⟩
  · intro fields extra h
    have hn : ∀ p ∈ extra, p.1 ≠ "nodes" := by
      intro p hp he; exact h p hp (by rw [he]; simp)
    have hv : ∀ p ∈ extra, p.1 ≠ "version" := by
      intro p hp he; exact h p hp (by rw [he]; simp)
    have hr : ∀ p ∈ extra, p.1 ≠ "root" := by
      intro p hp he; exact h p hp (by rw [he]; simp)
    simp only [decodeFlakeLock]
    rw [lookupField_append _ _ _ hn, lookupField_append _ _ _ hv,
      getStrField_append _ _ _ hr]
  · intro fields extra h
    simp only [decodeNode]
    rw [lookupField_append _ _ _ h]
  · intro fields extra h
    have ht : ∀ p ∈ extra, p.1 ≠ "type" := by
      intro p hp he; exact h p hp (by rw [he]; simp)
    have ho : ∀ p ∈ extra, p.1 ≠ "owner" := by
      intro p hp he; exact h p hp (by rw [he]; simp)
    have hr : ∀ p ∈ extra, p.1 ≠ "repo" := by
      intro p hp he; exact h p hp (by rw [he]; simp)
    have hu : ∀ p ∈ extra, p.1 ≠ "url" := by
      intro p hp he; exact h p hp (by rw [he]; simp)
    have hpa : ∀ p ∈ extra, p.1 ≠ "path" := by
      intro p hp he; exact h p hp (by rw [he]; simp)
    have htag : decodeTagged (fields ++ extra) = decodeTagged fields := by
      funext t
      unfold decodeTagged
      split_ifs
      · exact decodeScm_append _ _ _ ho hr
      · exact decodeScm_append _ _ _ ho hr
      · exact decodeScm_append _ _ _ ho hr
      · exact decodeUrl_append _ _ _ hu
      · exact decodeUrl_append _ _ _ hu
      · exact decodeUrl_append _ _ _ hu
      · exact decodePathVariant_append _ _ hpa
      · rfl
    have hlt := lookupField_append fields extra "type" ht
    cases hv : lookupField fields "type" with
    | none => simp [decodeLocked, hlt, hv]
    | some v =>
        cases v with
        | str t => simp [decodeLocked, hlt, hv, htag]
        | null => simp [decodeLocked, hlt, hv]
        | bool b => simp [decodeLocked, hlt, hv]
        | num n => simp [decodeLocked, hlt, hv]
        | arr elems => simp [decodeLocked, hlt, hv]
        | obj fs => simp [decodeLocked, hlt, hv]

/-- C10 witness: the top-level and locked-level parts of the theorem
applied to concrete documents with extra fields. -/
theorem c10_unknown_fields_ignored_witness :
    decodeFlakeLock (Json.obj
        ([("nodes", Json.obj []), ("version", Json.num 7), ("root", Json.str "root")] ++
          [("extraField", Json.str "x")])) =
      decodeFlakeLock (Json.obj
        [("nodes", Json.obj []), ("version", Json.num 7), ("root", Json.str "root")]) ∧
    decodeNode (Json.obj ([("locked", Json.null)] ++ [("original", Json.obj [])])) =
      decodeNode (Json.obj [("locked", Json.null)]) :=
  ⟨c10_unknown_fields_ignored.1 _ _ (by decide),
   c10_unknown_fields_ignored.2.1 _ _ (by decide)⟩

end LockerLint
